import Mathlib

/-!
Shallow embedding of the tool-memory subsystem of the LLM-OS repository
(`src/tool_repository/manager/tool_manager.py` and
`src/tool_repository/manager/action_node.py`).

The `ToolManager` state is modelled explicitly:
* `generated_tools` — the in-memory Python dict mapping tool name to
  `{code, description}` (insertion-ordered association list, unique keys);
* `index` — the Chroma vector collection, as an insertion-ordered list of
  `(id, document)` pairs (the embedded document is the tool description);
* `file_code` / `file_desc` — the contents of `tool_code/<name>.py` and
  `tool_description/<name>.txt` artifact files, keyed by tool name;
* `manifest` — the parsed content of `generated_tools.json`; `none` means the
  file is not valid JSON (for example after being truncated by `open(_, "w")`).

Embedding-provider calls may fail; each operation that embeds text takes an
`embedOk` flag for that call (a failed call raises `EmbeddingUnavailable` in
the Python code, modelled as an error outcome that still reports the state
the code had mutated up to the raise point).  File writes are additionally
recorded as a trace of `FileOp`s, distinguishing direct truncate-and-write
(`open(path, "w")`, what the code does) from write-to-temp-then-rename.
-/

structure Tool where
  code : String
  description : String
deriving DecidableEq

/-- Insertion-ordered association list, the model of a Python `dict`. -/
abbrev Dict (α : Type) := List (String × α)

/-- Membership test on a Python dict (`name in d`). -/
def dictContains {α : Type} (k : String) : Dict α → Bool
  | [] => false
  | (k2, _) :: rest => if k2 = k then true else dictContains k rest

/-- Lookup on a Python dict (`d[name]`, `None` when the key is absent). -/
def dictGet {α : Type} (k : String) : Dict α → Option α
  | [] => none
  | (k2, v) :: rest => if k2 = k then some v else dictGet k rest

/-- Python dict assignment `d[k] = v`: replaces the value in place when the
key is present (keeping its position), otherwise appends at the end. -/
def dictInsert {α : Type} (k : String) (v : α) : Dict α → Dict α
  | [] => [(k, v)]
  | (k2, v2) :: rest =>
      if k2 = k then (k, v) :: rest else (k2, v2) :: dictInsert k v rest

/-- The key sequence of a dict, in insertion order. -/
def dictKeys {α : Type} (d : Dict α) : List String := d.map Prod.fst

/-- Chroma `collection.delete(ids=[n])`: drop every entry stored under id
`n`, keeping the rest in order. -/
def removeId {α : Type} (n : String) : Dict α → Dict α
  | [] => []
  | (k, v) :: rest =>
      if k = n then removeId n rest else (k, v) :: removeId n rest

/-- Drop every occurrence of `n` from a list of keys. -/
def removeAll (n : String) : List String → List String
  | [] => []
  | k :: rest => if k = n then removeAll n rest else k :: removeAll n rest

/-- The error taxonomy of the spec, mapped onto the Python exceptions the
code can raise: `KeyError` on name lookup (`toolNotFound`), a failed
`json.load` at construction (`catalogCorrupt`), the `assert` on the
index/catalog counts (`invariantViolation`), a failed OpenAI embedding call
(`embeddingUnavailable`), and `io.UnsupportedOperation` from calling
`json.load` on a file opened in write mode (`notReadable`). -/
inductive RepoError where
  | embeddingUnavailable : RepoError
  | toolNotFound : String → RepoError
  | catalogCorrupt : RepoError
  | invariantViolation : RepoError
  | notReadable : RepoError
deriving DecidableEq

/-- One file-system write performed by the code.  `writeDirect` is
`open(path, "w")` followed by writing (truncate in place); `writeTempReplace`
is write-to-a-temp-file-then-atomic-rename, which the source never uses. -/
inductive FileOp where
  | writeDirect : String → FileOp
  | writeTempReplace : String → FileOp
deriving DecidableEq

def FileOp.isTempReplace : FileOp → Bool
  | .writeDirect _ => false
  | .writeTempReplace _ => true

def codePath (name : String) : String := "tool_code/" ++ name ++ ".py"

def descPath (name : String) : String := "tool_description/" ++ name ++ ".txt"

def manifestPath : String := "generated_tools.json"

/-- The observable state of one `ToolManager` and its repository directory. -/
structure RepoState where
  generated_tools : Dict Tool
  index : Dict String
  file_code : Dict String
  file_desc : Dict String
  manifest : Option (Dict Tool)
deriving DecidableEq

/-- Outcome of one mutating call: the state when the call returned or raised,
the raised error if any, and the trace of file writes performed. -/
structure StepResult where
  state : RepoState
  error : Option RepoError
  ops : List FileOp
deriving DecidableEq

/-- `ToolManager.add_new_tool` (tool_manager.py lines 112-169).  Steps, in
source order: if the name is already a key of `generated_tools`, delete its
vector from the Chroma collection; call `add_texts` (which first computes the
embedding — `embedOk = false` models that provider call failing, raising out
of the method with everything mutated so far kept); assign
`generated_tools[name]`; `assert` the collection count equals the dict size;
then write the code file, the description file, and the manifest, each by
`open(path, "w")`. -/
def add_new_tool (embedOk : Bool) (task_name code description : String)
    (st : RepoState) : StepResult :=
  let st1 :=
    if dictContains task_name st.generated_tools then
      { st with index := removeId task_name st.index }
    else st
  if embedOk then
    let st2 := { st1 with index := st1.index ++ [(task_name, description)] }
    let st3 := { st2 with
      generated_tools := dictInsert task_name ⟨code, description⟩ st2.generated_tools }
    if st3.index.length = st3.generated_tools.length then
      { state := { st3 with
          file_code := dictInsert task_name code st3.file_code,
          file_desc := dictInsert task_name description st3.file_desc,
          manifest := some st3.generated_tools },
        error := none,
        ops := [.writeDirect (codePath task_name),
                .writeDirect (descPath task_name),
                .writeDirect manifestPath] }
    else
      { state := st3, error := some .invariantViolation, ops := [] }
  else
    { state := st1, error := some .embeddingUnavailable, ops := [] }

/-- `ToolManager.delete_tool` (tool_manager.py lines 251-286).  Steps, in
source order: if the name is a key of `generated_tools`, delete its vector
from the Chroma collection (the in-memory dict itself is never touched);
then `with open(manifest, "w") as file: tool_infos = json.load(file)` —
`open(_, "w")` truncates the manifest to the empty string (no longer valid
JSON) and `json.load` on a write-mode handle raises
`io.UnsupportedOperation: not readable`, so the method always raises here
and the artifact-file removal code below it never runs. -/
def delete_tool (tool : String) (st : RepoState) : StepResult :=
  let st1 :=
    if dictContains tool st.generated_tools then
      { st with index := removeId tool st.index }
    else st
  { state := { st1 with manifest := none },
    error := some .notReadable,
    ops := [.writeDirect manifestPath] }

/-- `ToolManager.exist_tool` (tool_manager.py lines 172-176). -/
def exist_tool (tool : String) (st : RepoState) : Bool :=
  dictContains tool st.generated_tools

/-- Stable insert for ranking: place `p` before the first element whose
distance is not smaller, so equal distances keep insertion order. -/
def insertRanked (dist : String → Int) (p : String × String) :
    Dict String → Dict String
  | [] => [p]
  | q :: rest =>
      if dist p.2 ≤ dist q.2 then p :: q :: rest
      else q :: insertRanked dist p rest

/-- Rank the whole collection by ascending distance to the query (Chroma
`similarity_search_with_score` ordering), stably. -/
def rankByScore (dist : String → Int) : Dict String → Dict String
  | [] => []
  | p :: rest => insertRanked dist p (rankByScore dist rest)

/-- `ToolManager.retrieve_tool_name` (tool_manager.py lines 178-210):
`k = min(collection.count(), k)`; if `k == 0` return `[]`; otherwise take
the `k` nearest documents and map out their `name` metadata (= the id).
`dist q doc` is the opaque embedding-distance of document `doc` from query
`q` (smaller is more similar). -/
def retrieve_tool_name (dist : String → String → Int) (query : String)
    (k : Nat) (st : RepoState) : List String :=
  let k2 := min st.index.length k
  if k2 = 0 then []
  else ((rankByScore (dist query) st.index).take k2).map Prod.fst

/-- `ToolManager.retrieve_tool_description` (tool_manager.py lines 212-229):
loop over the given names in order, appending
`generated_tools[name]["description"]`; a missing name raises `KeyError`
(`toolNotFound`) there, discarding the partial list. -/
def retrieve_tool_description (st : RepoState) :
    List String → Except RepoError (List String)
  | [] => .ok []
  | n :: rest =>
      match dictGet n st.generated_tools with
      | none => .error (.toolNotFound n)
      | some t =>
          match retrieve_tool_description st rest with
          | .error e => .error e
          | .ok ds => .ok (t.description :: ds)

/-- `ToolManager.retrieve_tool_code` (tool_manager.py lines 232-249): same
loop as `retrieve_tool_description`, reading the `code` field. -/
def retrieve_tool_code (st : RepoState) :
    List String → Except RepoError (List String)
  | [] => .ok []
  | n :: rest =>
      match dictGet n st.generated_tools with
      | none => .error (.toolNotFound n)
      | some t =>
          match retrieve_tool_code st rest with
          | .error e => .error e
          | .ok cs => .ok (t.code :: cs)

/-- `ToolManager.__init__` (tool_manager.py lines 46-75): `json.load` the
manifest eagerly (raising if it is not valid JSON), attach the persisted
Chroma collection as it is on disk (no rebuild), then `assert` that the
collection count equals the loaded dict size; a mismatch raises
`AssertionError` and the instance is never produced. -/
def initToolManager (manifestFile : Option (Dict Tool))
    (persistedIndex : Dict String) (diskCode diskDesc : Dict String) :
    Except RepoError RepoState :=
  match manifestFile with
  | none => .error .catalogCorrupt
  | some tools =>
      if persistedIndex.length = tools.length then
        .ok { generated_tools := tools, index := persistedIndex,
              file_code := diskCode, file_desc := diskDesc,
              manifest := some tools }
      else .error .invariantViolation

/-- A reachable repository state: the catalog dict has unique keys (it is a
Python dict) and the Chroma ids are exactly the catalog keys, up to order
(replacing a tool re-appends its vector at the end of the collection while
the dict keeps its position, so only a permutation is maintained). -/
def WellFormed (st : RepoState) : Prop :=
  (dictKeys st.generated_tools).Nodup ∧
  (dictKeys st.index).Perm (dictKeys st.generated_tools)

instance (st : RepoState) : Decidable (WellFormed st) := by
  unfold WellFormed; infer_instance

/- `ActionNode` (action_node.py).  Field names follow the public property
names of the class; the constructor fills the non-argument fields with the
empty defaults of `__init__`. -/
structure ActionNode where
  name : String
  description : String
  return_val : String
  relevant_code : Dict String
  next_action : Dict String
  status : Bool
  node_type : String
deriving DecidableEq

/-- `ActionNode.__init__` (action_node.py lines 16-31). -/
def ActionNode.mkNode (name description node_type : String) : ActionNode :=
  { name := name, description := description, return_val := "",
    relevant_code := [], next_action := [], status := false,
    node_type := node_type }

/-- Modelled from the spec: `record_result` is described in spec section 4.4
("sets `return_val = value` and `status = true`; calling it twice is allowed
and simply overwrites the prior result") but no such method exists in
`action_node.py` or anywhere else under src/. -/
def ActionNode.record_result (node : ActionNode) (value : String) : ActionNode :=
  { node with return_val := value, status := true }


/-! ### Dictionary lemmas -/

theorem mem_dictKeys_iff {α : Type} {k : String} {d : Dict α} :
    k ∈ dictKeys d ↔ dictContains k d = true := by
  induction d with
  | nil => simp [dictKeys, dictContains]
  | cons p rest ih =>
      obtain ⟨k2, v2⟩ := p
      by_cases h : k2 = k
      · simp [dictKeys, dictContains, h]
      · simp only [dictKeys, List.map_cons, List.mem_cons, dictContains, h,
          if_false] at ih ⊢
        constructor
        · intro hm
          cases hm with
          | inl e => exact absurd (Eq.symm e) h
          | inr e => exact ih.mp e
        · intro hc
          exact Or.inr (ih.mpr hc)

theorem dictGet_insert_self {α : Type} (k : String) (v : α) (d : Dict α) :
    dictGet k (dictInsert k v d) = some v := by
  induction d with
  | nil => simp [dictInsert, dictGet]
  | cons p rest ih =>
      obtain ⟨k2, v2⟩ := p
      by_cases h : k2 = k
      · simp [dictInsert, dictGet, h]
      · simp [dictInsert, dictGet, h, ih]

theorem dictGet_insert_ne {α : Type} {m k : String} (h : m ≠ k) (v : α)
    (d : Dict α) : dictGet m (dictInsert k v d) = dictGet m d := by
  induction d with
  | nil => simp [dictInsert, dictGet, Ne.symm h]
  | cons p rest ih =>
      obtain ⟨k2, v2⟩ := p
      by_cases hk : k2 = k
      · subst hk
        simp [dictInsert, dictGet, Ne.symm h]
      · simp only [dictInsert, hk, if_false, dictGet]
        by_cases hm : k2 = m
        · simp [hm]
        · simp [hm, ih]

theorem dictKeys_insert_contains {α : Type} {k : String} (v : α) {d : Dict α}
    (h : dictContains k d = true) :
    dictKeys (dictInsert k v d) = dictKeys d := by
  induction d with
  | nil => simp [dictContains] at h
  | cons p rest ih =>
      obtain ⟨k2, v2⟩ := p
      by_cases hk : k2 = k
      · simp [dictInsert, dictKeys, hk]
      · simp only [dictContains, hk, if_false] at h
        have ih2 := ih h
        simp only [dictKeys] at ih2
        simp [dictInsert, dictKeys, hk, ih2]

theorem dictKeys_insert_not_contains {α : Type} {k : String} (v : α)
    {d : Dict α} (h : dictContains k d = false) :
    dictKeys (dictInsert k v d) = dictKeys d ++ [k] := by
  induction d with
  | nil => simp [dictInsert, dictKeys]
  | cons p rest ih =>
      obtain ⟨k2, v2⟩ := p
      by_cases hk : k2 = k
      · simp [dictContains, hk] at h
      · simp only [dictContains, hk, if_false] at h
        have ih2 := ih h
        simp only [dictKeys] at ih2
        simp [dictInsert, dictKeys, hk, ih2]

theorem dictContains_insert_self {α : Type} (k : String) (v : α) (d : Dict α) :
    dictContains k (dictInsert k v d) = true := by
  induction d with
  | nil => simp [dictInsert, dictContains]
  | cons p rest ih =>
      obtain ⟨k2, v2⟩ := p
      by_cases hk : k2 = k
      · simp [dictInsert, dictContains, hk]
      · simp [dictInsert, dictContains, hk, ih]

theorem length_dictInsert_contains {α : Type} {k : String} (v : α)
    {d : Dict α} (h : dictContains k d = true) :
    (dictInsert k v d).length = d.length := by
  have h1 : (dictKeys (dictInsert k v d)).length = (dictKeys d).length := by
    rw [dictKeys_insert_contains v h]
  simpa [dictKeys] using h1

theorem dictGet_isSome_eq_contains {α : Type} (k : String) (d : Dict α) :
    (dictGet k d).isSome = dictContains k d := by
  induction d with
  | nil => simp [dictGet, dictContains]
  | cons p rest ih =>
      obtain ⟨k2, v2⟩ := p
      by_cases hk : k2 = k
      · simp [dictGet, dictContains, hk]
      · simp [dictGet, dictContains, hk, ih]

theorem dictGet_removeId_ne {α : Type} {m n : String} (h : m ≠ n)
    (d : Dict α) : dictGet m (removeId n d) = dictGet m d := by
  induction d with
  | nil => simp [removeId]
  | cons p rest ih =>
      obtain ⟨k2, v2⟩ := p
      by_cases hk : k2 = n
      · simp [removeId, dictGet, hk, Ne.symm h, ih]
      · by_cases hm : k2 = m
        · simp [removeId, dictGet, hk, hm, h]
        · simp [removeId, dictGet, hk, hm, ih]

theorem dictGet_append_singleton_ne {α : Type} {m n : String} (h : m ≠ n)
    (d : Dict α) (v : α) : dictGet m (d ++ [(n, v)]) = dictGet m d := by
  induction d with
  | nil => simp [dictGet, Ne.symm h]
  | cons p rest ih =>
      obtain ⟨k2, v2⟩ := p
      by_cases hm : k2 = m
      · simp [dictGet, hm]
      · simp [dictGet, hm, ih]

theorem dictKeys_removeId {α : Type} (n : String) (d : Dict α) :
    dictKeys (removeId n d) = removeAll n (dictKeys d) := by
  induction d with
  | nil => simp [removeId, removeAll, dictKeys]
  | cons p rest ih =>
      obtain ⟨k2, v2⟩ := p
      simp only [dictKeys] at ih ⊢
      by_cases hk : k2 = n
      · simp [removeId, removeAll, hk, ih]
      · simp [removeId, removeAll, hk, ih]

theorem removeAll_of_not_mem {l : List String} {n : String} (h : n ∉ l) :
    removeAll n l = l := by
  induction l with
  | nil => simp [removeAll]
  | cons a rest ih =>
      have ha : ¬a = n := fun e => h (e ▸ List.mem_cons_self a rest)
      have hr : n ∉ rest := fun e => h (List.mem_cons_of_mem a e)
      simp [removeAll, ha, ih hr]

theorem removeAll_append_perm {l : List String} {n : String}
    (hnd : l.Nodup) (hm : n ∈ l) :
    ((removeAll n l) ++ [n]).Perm l := by
  induction l with
  | nil => simp at hm
  | cons a rest ih =>
      by_cases ha : a = n
      · subst ha
        have hnr : a ∉ rest := (List.nodup_cons.mp hnd).1
        rw [show removeAll a (a :: rest) = removeAll a rest by simp [removeAll],
          removeAll_of_not_mem hnr]
        exact List.perm_append_singleton a rest
      · have hm2 : n ∈ rest := by
          cases List.mem_cons.mp hm with
          | inl e => exact absurd (Eq.symm e) ha
          | inr e => exact e
        have hnd2 : rest.Nodup := (List.nodup_cons.mp hnd).2
        rw [show removeAll n (a :: rest) = a :: removeAll n rest by
          simp [removeAll, ha]]
        exact List.Perm.cons a (ih hnd2 hm2)

/-! ### Behaviour of `add_new_tool` on a well-formed state -/

theorem add_new_tool_spec (n c d : String) (st : RepoState)
    (h : WellFormed st) :
    (add_new_tool true n c d st).error = none ∧
    (add_new_tool true n c d st).state.generated_tools
      = dictInsert n ⟨c, d⟩ st.generated_tools ∧
    WellFormed (add_new_tool true n c d st).state ∧
    (add_new_tool true n c d st).state.index.length
      = (add_new_tool true n c d st).state.generated_tools.length := by
  obtain ⟨hnd, hperm⟩ := h
  by_cases hc : dictContains n st.generated_tools
  · -- replace path: the old vector is deleted first, then re-appended
    have hmemD : n ∈ dictKeys st.generated_tools := mem_dictKeys_iff.mpr hc
    have hmemI : n ∈ dictKeys st.index := hperm.mem_iff.mpr hmemD
    have hndI : (dictKeys st.index).Nodup := hperm.symm.nodup hnd
    have hrm := dictKeys_removeId n st.index
    have hkeysI2 : dictKeys (removeId n st.index ++ [(n, d)])
        = removeAll n (dictKeys st.index) ++ [n] := by
      simp only [dictKeys, List.map_append, List.map_cons, List.map_nil]
      simp only [dictKeys] at hrm
      rw [hrm]
    have hperm2 : (dictKeys (removeId n st.index ++ [(n, d)])).Perm
        (dictKeys st.generated_tools) := by
      rw [hkeysI2]
      exact (removeAll_append_perm hndI hmemI).trans hperm
    have hkeysD2 : dictKeys (dictInsert n ⟨c, d⟩ st.generated_tools)
        = dictKeys st.generated_tools := dictKeys_insert_contains _ hc
    have hlen : (removeId n st.index ++ [(n, d)]).length
        = (dictInsert n ⟨c, d⟩ st.generated_tools).length := by
      have h1 := hperm2.length_eq
      rw [hkeysD2.symm] at h1
      simpa [dictKeys] using h1
    have hred : add_new_tool true n c d st =
        { state := { generated_tools := dictInsert n ⟨c, d⟩ st.generated_tools,
                     index := removeId n st.index ++ [(n, d)],
                     file_code := dictInsert n c st.file_code,
                     file_desc := dictInsert n d st.file_desc,
                     manifest := some (dictInsert n ⟨c, d⟩ st.generated_tools) },
          error := none,
          ops := [.writeDirect (codePath n), .writeDirect (descPath n),
                  .writeDirect manifestPath] } := by
      simp [add_new_tool, hc, hlen]
    rw [hred]
    refine ⟨rfl, rfl, ⟨?_, ?_⟩, ?_⟩
    · rw [hkeysD2]; exact hnd
    · rw [hkeysD2]; exact hperm2
    · exact hlen
  · -- fresh-name path: the vector is appended, the dict entry appended
    have hcf : dictContains n st.generated_tools = false := by simpa using hc
    have hmemD : n ∉ dictKeys st.generated_tools := by
      rw [mem_dictKeys_iff, hcf]; simp
    have hkeysD2 : dictKeys (dictInsert n ⟨c, d⟩ st.generated_tools)
        = dictKeys st.generated_tools ++ [n] :=
      dictKeys_insert_not_contains _ hcf
    have hndD2 : (dictKeys st.generated_tools ++ [n]).Nodup :=
      ((List.perm_append_singleton n
        (dictKeys st.generated_tools)).symm).nodup
        (List.nodup_cons.mpr ⟨hmemD, hnd⟩)
    have hperm2 : (dictKeys (st.index ++ [(n, d)])).Perm
        (dictKeys st.generated_tools ++ [n]) := by
      have e : dictKeys (st.index ++ [(n, d)]) = dictKeys st.index ++ [n] := by
        simp [dictKeys]
      rw [e]
      exact (List.perm_append_singleton n (dictKeys st.index)).trans
        ((hperm.cons n).trans
          (List.perm_append_singleton n (dictKeys st.generated_tools)).symm)
    have hlen : (st.index ++ [(n, d)]).length
        = (dictInsert n ⟨c, d⟩ st.generated_tools).length := by
      have h1 := hperm2.length_eq
      rw [hkeysD2.symm] at h1
      simpa [dictKeys] using h1
    have hred : add_new_tool true n c d st =
        { state := { generated_tools := dictInsert n ⟨c, d⟩ st.generated_tools,
                     index := st.index ++ [(n, d)],
                     file_code := dictInsert n c st.file_code,
                     file_desc := dictInsert n d st.file_desc,
                     manifest := some (dictInsert n ⟨c, d⟩ st.generated_tools) },
          error := none,
          ops := [.writeDirect (codePath n), .writeDirect (descPath n),
                  .writeDirect manifestPath] } := by
      simp [add_new_tool, hcf, hlen]
    rw [hred]
    refine ⟨rfl, rfl, ⟨?_, ?_⟩, ?_⟩
    · rw [hkeysD2]; exact hndD2
    · rw [hkeysD2]; exact hperm2
    · exact hlen

/-! ### Ranking length lemmas -/

theorem length_insertRanked (dist : String → Int) (p : String × String)
    (l : Dict String) : (insertRanked dist p l).length = l.length + 1 := by
  induction l with
  | nil => simp [insertRanked]
  | cons q rest ih =>
      by_cases hq : dist p.2 ≤ dist q.2
      · simp [insertRanked, hq]
      · simp [insertRanked, hq, ih]

theorem length_rankByScore (dist : String → Int) (l : Dict String) :
    (rankByScore dist l).length = l.length := by
  induction l with
  | nil => simp [rankByScore]
  | cons p rest ih => simp [rankByScore, length_insertRanked, ih]

/-! ### Name-resolution helper lemmas -/

theorem retrieve_desc_of_all_present (st : RepoState) :
    ∀ names : List String,
    (∀ n ∈ names, dictContains n st.generated_tools = true) →
    retrieve_tool_description st names
      = .ok (names.filterMap
          (fun n => (dictGet n st.generated_tools).map Tool.description)) := by
  intro names
  induction names with
  | nil => intro _; rfl
  | cons n rest ih =>
      intro hall
      have hn := hall n (List.mem_cons_self n rest)
      have hs : (dictGet n st.generated_tools).isSome = true := by
        rw [dictGet_isSome_eq_contains]; exact hn
      obtain ⟨t, ht⟩ := Option.isSome_iff_exists.mp hs
      have hrest := ih (fun m hm => hall m (List.mem_cons_of_mem n hm))
      simp [retrieve_tool_description, ht, hrest]

theorem retrieve_code_of_all_present (st : RepoState) :
    ∀ names : List String,
    (∀ n ∈ names, dictContains n st.generated_tools = true) →
    retrieve_tool_code st names
      = .ok (names.filterMap
          (fun n => (dictGet n st.generated_tools).map Tool.code)) := by
  intro names
  induction names with
  | nil => intro _; rfl
  | cons n rest ih =>
      intro hall
      have hn := hall n (List.mem_cons_self n rest)
      have hs : (dictGet n st.generated_tools).isSome = true := by
        rw [dictGet_isSome_eq_contains]; exact hn
      obtain ⟨t, ht⟩ := Option.isSome_iff_exists.mp hs
      have hrest := ih (fun m hm => hall m (List.mem_cons_of_mem n hm))
      simp [retrieve_tool_code, ht, hrest]

theorem retrieve_desc_error_of_missing (st : RepoState) :
    ∀ names : List String,
    (∃ n ∈ names, dictContains n st.generated_tools = false) →
    ∃ m, retrieve_tool_description st names = .error (.toolNotFound m) := by
  intro names
  induction names with
  | nil =>
      rintro ⟨n, hn, _⟩
      simp at hn
  | cons n rest ih =>
      rintro ⟨m0, hm0, hmc⟩
      by_cases hn : dictContains n st.generated_tools
      · have hs : (dictGet n st.generated_tools).isSome = true := by
          rw [dictGet_isSome_eq_contains]; exact hn
        obtain ⟨t, ht⟩ := Option.isSome_iff_exists.mp hs
        have hm02 : m0 ∈ rest := by
          cases List.mem_cons.mp hm0 with
          | inl e =>
              exfalso
              rw [e] at hmc
              rw [hmc] at hn
              exact Bool.false_ne_true hn
          | inr e => exact e
        obtain ⟨m, hme⟩ := ih ⟨m0, hm02, hmc⟩
        refine ⟨m, ?_⟩
        simp [retrieve_tool_description, ht, hme]
      · have hnf : dictContains n st.generated_tools = false := by simpa using hn
        have h2 := dictGet_isSome_eq_contains n st.generated_tools
        rw [hnf] at h2
        have hg : dictGet n st.generated_tools = none :=
          Option.not_isSome_iff_eq_none.mp (by simp [h2])
        exact ⟨n, by simp [retrieve_tool_description, hg]⟩

theorem retrieve_code_error_of_missing (st : RepoState) :
    ∀ names : List String,
    (∃ n ∈ names, dictContains n st.generated_tools = false) →
    ∃ m, retrieve_tool_code st names = .error (.toolNotFound m) := by
  intro names
  induction names with
  | nil =>
      rintro ⟨n, hn, _⟩
      simp at hn
  | cons n rest ih =>
      rintro ⟨m0, hm0, hmc⟩
      by_cases hn : dictContains n st.generated_tools
      · have hs : (dictGet n st.generated_tools).isSome = true := by
          rw [dictGet_isSome_eq_contains]; exact hn
        obtain ⟨t, ht⟩ := Option.isSome_iff_exists.mp hs
        have hm02 : m0 ∈ rest := by
          cases List.mem_cons.mp hm0 with
          | inl e =>
              exfalso
              rw [e] at hmc
              rw [hmc] at hn
              exact Bool.false_ne_true hn
          | inr e => exact e
        obtain ⟨m, hme⟩ := ih ⟨m0, hm02, hmc⟩
        refine ⟨m, ?_⟩
        simp [retrieve_tool_code, ht, hme]
      · have hnf : dictContains n st.generated_tools = false := by simpa using hn
        have h2 := dictGet_isSome_eq_contains n st.generated_tools
        rw [hnf] at h2
        have hg : dictGet n st.generated_tools = none :=
          Option.not_isSome_iff_eq_none.mp (by simp [h2])
        exact ⟨n, by simp [retrieve_tool_code, hg]⟩

/-! ### Concrete repository states used as explicit inputs -/

/-- The empty repository, as produced by a fresh directory with an empty
manifest. -/
def stEmpty : RepoState :=
  { generated_tools := [], index := [], file_code := [], file_desc := [],
    manifest := some [] }

/-- A consistent one-tool repository. -/
def stOne : RepoState :=
  { generated_tools := [("t", ⟨"c", "d"⟩)], index := [("t", "d")],
    file_code := [("t", "c")], file_desc := [("t", "d")],
    manifest := some [("t", ⟨"c", "d"⟩)] }

/-! ### Claim theorems -/

/-- C1: the claimed cross-store invariant — after every `add_new_tool` /
`delete_tool` call from a consistent repository, `Index.count()` equals
`|Catalog.names()|` — is broken by the code's delete path.  Evaluated at the
consistent one-tool repository `stOne`, a single `delete_tool "t"` removes
the vector from the index but never removes the entry from
`generated_tools` (the method re-reads the manifest through a write-mode
file handle and raises before any catalog update), leaving index count 0
against catalog size 1. -/
theorem delete_tool_breaks_count_invariant :
    WellFormed stOne ∧
    stOne.index.length = stOne.generated_tools.length ∧
    (delete_tool "t" stOne).state.index.length = 0 ∧
    (delete_tool "t" stOne).state.generated_tools.length = 1 ∧
    (delete_tool "t" stOne).error = some RepoError.notReadable := by
  refine ⟨?_, rfl, ?_, rfl, rfl⟩
  · constructor
    · simp [stOne, dictKeys]
    · simp [stOne, dictKeys]
  · simp [delete_tool, stOne, dictContains, removeId]

/-- C2: the claim that `delete_tool` is idempotent and that deleting an
absent name succeeds with no effect fails on the code.  Evaluated at the
empty repository, `delete_tool "x"` raises (`json.load` on a write-mode
handle) and truncates `generated_tools.json` to invalid JSON, so the call
neither succeeds nor leaves the observable state unchanged. -/
theorem delete_tool_absent_raises_and_truncates :
    (delete_tool "x" stEmpty).error = some RepoError.notReadable ∧
    (delete_tool "x" stEmpty).state.manifest = none ∧
    stEmpty.manifest ≠ none ∧
    (delete_tool "x" stEmpty).state ≠ stEmpty := by
  refine ⟨rfl, rfl, by simp [stEmpty], ?_⟩
  intro he
  have h1 : (delete_tool "x" stEmpty).state.manifest = stEmpty.manifest := by
    rw [he]
  simp [delete_tool, stEmpty, dictContains] at h1

/-- C3: upsert-replace.  From any well-formed repository state, adding
`(n, cA, dA)` and then `(n, cB, dB)` leaves exactly one catalog entry named
`n`, holding `cB`/`dB`, and the index count after the second call equals the
count after the first. -/
theorem upsert_replace (n cA dA cB dB : String) (st : RepoState)
    (h : WellFormed st) :
    (dictKeys (add_new_tool true n cB dB
        (add_new_tool true n cA dA st).state).state.generated_tools).count n
      = 1 ∧
    dictGet n (add_new_tool true n cB dB
        (add_new_tool true n cA dA st).state).state.generated_tools
      = some ⟨cB, dB⟩ ∧
    (add_new_tool true n cB dB
        (add_new_tool true n cA dA st).state).state.index.length
      = (add_new_tool true n cA dA st).state.index.length := by
  obtain ⟨e1, g1, wf1, l1⟩ := add_new_tool_spec n cA dA st h
  obtain ⟨e2, g2, wf2, l2⟩ :=
    add_new_tool_spec n cB dB (add_new_tool true n cA dA st).state wf1
  have hc1 : dictContains n
      (add_new_tool true n cA dA st).state.generated_tools = true := by
    rw [g1]; exact dictContains_insert_self n _ _
  have hget : dictGet n (add_new_tool true n cB dB
      (add_new_tool true n cA dA st).state).state.generated_tools
      = some ⟨cB, dB⟩ := by
    rw [g2]; exact dictGet_insert_self n _ _
  have hmem : n ∈ dictKeys (add_new_tool true n cB dB
      (add_new_tool true n cA dA st).state).state.generated_tools := by
    rw [mem_dictKeys_iff, g2]
    exact dictContains_insert_self n _ _
  refine ⟨List.count_eq_one_of_mem wf2.1 hmem, hget, ?_⟩
  rw [l2, g2, length_dictInsert_contains _ hc1, l1]

/-- C3 witness: the upsert-replace property instantiated at the consistent
one-tool repository `stOne`. -/
theorem upsert_replace_witness :
    WellFormed stOne ∧
    ((dictKeys (add_new_tool true "t" "b" "e"
        (add_new_tool true "t" "a" "f" stOne).state).state.generated_tools).count "t"
      = 1 ∧
    dictGet "t" (add_new_tool true "t" "b" "e"
        (add_new_tool true "t" "a" "f" stOne).state).state.generated_tools
      = some ⟨"b", "e"⟩ ∧
    (add_new_tool true "t" "b" "e"
        (add_new_tool true "t" "a" "f" stOne).state).state.index.length
      = (add_new_tool true "t" "a" "f" stOne).state.index.length) :=
  ⟨by decide, upsert_replace "t" "a" "f" "b" "e" stOne (by decide)⟩

/-- C4: retrieval bound.  For every distance function, query and `k`,
`retrieve_tool_name` returns at most `min k count` names, and on an index
with zero vectors it returns the empty list for any `k`. -/
theorem retrieval_bound (dist : String → String → Int) (q : String)
    (k : Nat) (st : RepoState) :
    (retrieve_tool_name dist q k st).length ≤ min k st.index.length ∧
    (st.index.length = 0 → retrieve_tool_name dist q k st = []) := by
  constructor
  · by_cases h0 : min st.index.length k = 0
    · simp [retrieve_tool_name, h0]
    · simp only [retrieve_tool_name, h0, if_false]
      rw [List.length_map, List.length_take, length_rankByScore]
      omega
  · intro h
    simp [retrieve_tool_name, h]

/-- C4 witness: the retrieval bound at a concrete distance function, query,
`k = 3` and the empty repository. -/
theorem retrieval_bound_witness :
    (retrieve_tool_name (fun _ _ => 0) "q" 3 stEmpty).length
      ≤ min 3 stEmpty.index.length ∧
    (stEmpty.index.length = 0 →
      retrieve_tool_name (fun _ _ => 0) "q" 3 stEmpty = []) :=
  retrieval_bound (fun _ _ => 0) "q" 3 stEmpty

/-- C5 counterexample: embedding-failure atomicity fails on the replace
path.  At the one-tool repository, `add_new_tool` for the existing name
`"t"` deletes the old index vector before the embedding call, so when the
embedding provider fails the operation has already mutated the index. -/
theorem embedding_failure_mutates_on_replace :
    (add_new_tool false "t" "c2" "d2" stOne).state.index = [] ∧
    stOne.index ≠ [] ∧
    (add_new_tool false "t" "c2" "d2" stOne).error
      = some RepoError.embeddingUnavailable := by
  refine ⟨?_, by simp [stOne], rfl⟩
  simp [add_new_tool, stOne, dictContains, removeId]

/-- C5 amended: when the embedding call fails during `add_new_tool`, the
operation aborts with `EmbeddingUnavailable` and leaves the catalog mapping,
both artifact-file stores and the manifest unchanged, performing no file
write; the index is also unchanged when the name was not already present,
but when the name was present its old vector has already been deleted
before the embedding call and is lost.  (Retrieval performs no state
mutation in the model at all, as in the code.) -/
theorem embedding_failure_partial_atomicity (n c d : String)
    (st : RepoState) :
    (add_new_tool false n c d st).error
      = some RepoError.embeddingUnavailable ∧
    (add_new_tool false n c d st).ops = [] ∧
    (add_new_tool false n c d st).state.generated_tools
      = st.generated_tools ∧
    (add_new_tool false n c d st).state.file_code = st.file_code ∧
    (add_new_tool false n c d st).state.file_desc = st.file_desc ∧
    (add_new_tool false n c d st).state.manifest = st.manifest ∧
    (dictContains n st.generated_tools = false →
      (add_new_tool false n c d st).state = st) ∧
    (dictContains n st.generated_tools = true →
      (add_new_tool false n c d st).state.index = removeId n st.index) := by
  by_cases hc : dictContains n st.generated_tools
  · simp [add_new_tool, hc]
  · have hcf : dictContains n st.generated_tools = false := by simpa using hc
    simp [add_new_tool, hcf]

/-- C5 amended witness: the embedding-failure behaviour instantiated at the
one-tool repository with the present name `"t"`. -/
theorem embedding_failure_partial_atomicity_witness :
    dictContains "t" stOne.generated_tools = true ∧
    (add_new_tool false "t" "x" "y" stOne).state.index
      = removeId "t" stOne.index ∧
    (add_new_tool false "t" "x" "y" stOne).state.generated_tools
      = stOne.generated_tools :=
  ⟨by decide,
   (embedding_failure_partial_atomicity "t" "x" "y" stOne).2.2.2.2.2.2.2
     (by decide),
   (embedding_failure_partial_atomicity "t" "x" "y" stOne).2.2.1⟩

/-- C6 counterexample: the catalog upsert of `add_new_tool` does not use
write-to-temp-then-atomic-replace for any of its writes.  A successful add
on the empty repository performs a non-empty write trace in which no
operation is a temp-then-replace write. -/
theorem catalog_upsert_not_temp_replace :
    (add_new_tool true "t" "c" "d" stEmpty).ops ≠ [] ∧
    ((add_new_tool true "t" "c" "d" stEmpty).ops.all
      FileOp.isTempReplace) = false := by
  constructor
  · simp [add_new_tool, stEmpty, dictContains, dictInsert]
  · simp [add_new_tool, stEmpty, dictContains, dictInsert, List.all,
      FileOp.isTempReplace]

/-- C6 amended: every successful `add_new_tool` call performs exactly three
file writes, in order: the code artifact file, the description artifact
file, and the manifest last — each a direct truncate-and-write
(`open(path, "w")`), not a write-to-temp-then-atomic-replace. -/
theorem catalog_upsert_direct_writes_manifest_last (embedOk : Bool)
    (n c d : String) (st : RepoState)
    (h : (add_new_tool embedOk n c d st).error = none) :
    (add_new_tool embedOk n c d st).ops
      = [.writeDirect (codePath n), .writeDirect (descPath n),
         .writeDirect manifestPath] := by
  cases embedOk
  · simp [add_new_tool] at h
  · by_cases hc : dictContains n st.generated_tools
    · by_cases hl : (removeId n st.index).length + 1
          = (dictInsert n ⟨c, d⟩ st.generated_tools).length
      · simp [add_new_tool, hc, hl]
      · exfalso
        simp [add_new_tool, hc, hl] at h
    · have hcf : dictContains n st.generated_tools = false := by simpa using hc
      by_cases hl : st.index.length + 1
          = (dictInsert n ⟨c, d⟩ st.generated_tools).length
      · simp [add_new_tool, hcf, hl]
      · exfalso
        simp [add_new_tool, hcf, hl] at h

/-- C6 amended witness: the write trace of a successful add on the empty
repository. -/
theorem catalog_upsert_direct_writes_manifest_last_witness :
    (add_new_tool true "t" "c" "d" stEmpty).error = none ∧
    (add_new_tool true "t" "c" "d" stEmpty).ops
      = [.writeDirect (codePath "t"), .writeDirect (descPath "t"),
         .writeDirect manifestPath] :=
  ⟨by decide,
   catalog_upsert_direct_writes_manifest_last true "t" "c" "d" stEmpty
     (by decide)⟩

/-- C7: startup consistency.  Construction reads the manifest eagerly
(a corrupt manifest is a fatal `CatalogCorrupt`), attaches the persisted
index exactly as stored (no rebuild), and when the persisted index count
differs from the catalog size it fails with the fatal consistency error and
yields no usable repository; on a matching pair it returns the state with
the catalog and index taken verbatim from disk. -/
theorem startup_consistency (tools : Dict Tool) (idx dc dd : Dict String) :
    initToolManager none idx dc dd = .error .catalogCorrupt ∧
    (idx.length ≠ tools.length →
      initToolManager (some tools) idx dc dd
        = .error .invariantViolation) ∧
    (idx.length = tools.length →
      initToolManager (some tools) idx dc dd
        = .ok { generated_tools := tools, index := idx, file_code := dc,
                file_desc := dd, manifest := some tools }) := by
  refine ⟨rfl, ?_, ?_⟩
  · intro h
    simp [initToolManager, h]
  · intro h
    simp [initToolManager, h]

/-- C7 witness: a mismatched pair (one catalog entry, empty index) fails
fatally; a matched pair constructs with the stores taken verbatim. -/
theorem startup_consistency_witness :
    ([] : Dict String).length ≠ ([("t", ⟨"c", "d"⟩)] : Dict Tool).length ∧
    initToolManager (some [("t", ⟨"c", "d"⟩)]) [] [] []
      = .error .invariantViolation ∧
    initToolManager (some [("t", ⟨"c", "d"⟩)]) [("t", "d")] [] []
      = .ok { generated_tools := [("t", ⟨"c", "d"⟩)], index := [("t", "d")],
              file_code := [], file_desc := [],
              manifest := some [("t", ⟨"c", "d"⟩)] } :=
  ⟨by decide,
   (startup_consistency [("t", ⟨"c", "d"⟩)] [] [] []).2.1 (by decide),
   (startup_consistency [("t", ⟨"c", "d"⟩)] [("t", "d")] [] []).2.2 rfl⟩

/-- C8: name resolution.  When every requested name is present in the
catalog, `retrieve_tool_description` and `retrieve_tool_code` return the
corresponding descriptions/code in exactly the input order; when any
requested name is absent, both fail with `ToolNotFound` and produce no
partial result. -/
theorem name_resolution (st : RepoState) (names : List String) :
    ((∀ n ∈ names, dictContains n st.generated_tools = true) →
      retrieve_tool_description st names
        = .ok (names.filterMap
            (fun n => (dictGet n st.generated_tools).map Tool.description)) ∧
      retrieve_tool_code st names
        = .ok (names.filterMap
            (fun n => (dictGet n st.generated_tools).map Tool.code))) ∧
    ((∃ n ∈ names, dictContains n st.generated_tools = false) →
      (∃ m, retrieve_tool_description st names
        = .error (.toolNotFound m)) ∧
      (∃ m, retrieve_tool_code st names = .error (.toolNotFound m))) := by
  constructor
  · intro hall
    exact ⟨retrieve_desc_of_all_present st names hall,
           retrieve_code_of_all_present st names hall⟩
  · intro hmiss
    exact ⟨retrieve_desc_error_of_missing st names hmiss,
           retrieve_code_error_of_missing st names hmiss⟩

/-- C8 witness: name resolution on the one-tool repository, once with the
present name list `["t"]` and once with the absent name list `["x"]`. -/
theorem name_resolution_witness :
    (retrieve_tool_description stOne ["t"]
        = .ok (["t"].filterMap
            (fun n => (dictGet n stOne.generated_tools).map Tool.description)) ∧
      retrieve_tool_code stOne ["t"]
        = .ok (["t"].filterMap
            (fun n => (dictGet n stOne.generated_tools).map Tool.code))) ∧
    ((∃ m, retrieve_tool_description stOne ["x"]
        = .error (.toolNotFound m)) ∧
      (∃ m, retrieve_tool_code stOne ["x"] = .error (.toolNotFound m))) :=
  ⟨(name_resolution stOne ["t"]).1 (by decide),
   (name_resolution stOne ["x"]).2 ⟨"x", by decide, by decide⟩⟩

/-- C9: ActionNode execution recording.  A node built by the constructor
has `status = false` and an empty `return_val`; `record_result value` sets
`return_val = value` and `status = true`; and calling `record_result` a
second time is allowed and simply overwrites the prior result (two calls
equal one call with the later value). -/
theorem action_node_execution_recording (n d t v w : String)
    (node : ActionNode) :
    (ActionNode.mkNode n d t).status = false ∧
    (ActionNode.mkNode n d t).return_val = "" ∧
    (node.record_result v).return_val = v ∧
    (node.record_result v).status = true ∧
    (node.record_result v).record_result w = node.record_result w :=
  ⟨rfl, rfl, rfl, rfl, rfl⟩

/-- C10: frame property of `add_new_tool`.  For every repository state and
every other name `m ≠ n`, adding or replacing `n` (on any path, including
embedding failure and the failed-assert path) leaves the catalog entry, the
index vector, and both artifact files of `m` unchanged. -/
theorem add_tool_frame (embedOk : Bool) (n c d m : String) (st : RepoState)
    (h : m ≠ n) :
    dictGet m (add_new_tool embedOk n c d st).state.generated_tools
      = dictGet m st.generated_tools ∧
    dictGet m (add_new_tool embedOk n c d st).state.index
      = dictGet m st.index ∧
    dictGet m (add_new_tool embedOk n c d st).state.file_code
      = dictGet m st.file_code ∧
    dictGet m (add_new_tool embedOk n c d st).state.file_desc
      = dictGet m st.file_desc := by
  cases embedOk
  · by_cases hc : dictContains n st.generated_tools
    · simp [add_new_tool, hc, dictGet_removeId_ne h]
    · have hcf : dictContains n st.generated_tools = false := by simpa using hc
      simp [add_new_tool, hcf]
  · by_cases hc : dictContains n st.generated_tools
    · by_cases hl : (removeId n st.index).length + 1
          = (dictInsert n ⟨c, d⟩ st.generated_tools).length
      · simp [add_new_tool, hc, hl, dictGet_insert_ne h,
          dictGet_removeId_ne h, dictGet_append_singleton_ne h]
      · simp [add_new_tool, hc, hl, dictGet_insert_ne h,
          dictGet_removeId_ne h, dictGet_append_singleton_ne h]
    · have hcf : dictContains n st.generated_tools = false := by simpa using hc
      by_cases hl : st.index.length + 1
          = (dictInsert n ⟨c, d⟩ st.generated_tools).length
      · simp [add_new_tool, hcf, hl, dictGet_insert_ne h,
          dictGet_append_singleton_ne h]
      · simp [add_new_tool, hcf, hl, dictGet_insert_ne h,
          dictGet_append_singleton_ne h]

/-- C10 witness: the frame property for name `"u"` while adding `"t"` on
the one-tool repository. -/
theorem add_tool_frame_witness :
    ("u" : String) ≠ "t" ∧
    (dictGet "u" (add_new_tool true "t" "c2" "d2" stOne).state.generated_tools
      = dictGet "u" stOne.generated_tools ∧
    dictGet "u" (add_new_tool true "t" "c2" "d2" stOne).state.index
      = dictGet "u" stOne.index ∧
    dictGet "u" (add_new_tool true "t" "c2" "d2" stOne).state.file_code
      = dictGet "u" stOne.file_code ∧
    dictGet "u" (add_new_tool true "t" "c2" "d2" stOne).state.file_desc
      = dictGet "u" stOne.file_desc) :=
  ⟨by decide, add_tool_frame true "t" "c2" "d2" "u" stOne (by decide)⟩
